import Mathlib

/-!
Formal model of the MLX-Convertor model-directory and archive manager
(src/utils.py), the conversion gateway (src/converter.py) and the inference
cache (src/tester.py).  Directories are modelled as finite labelled trees,
zip archives as lists of named entries, and the external libraries
(shutil.make_archive, zipfile.extractall, mlx_lm) by their documented
filesystem semantics.  All definitions are executable and kernel-reducible.
-/

set_option linter.unusedVariables false

/-! Character-level string utilities mirroring the Python primitives used by
the source: str.strip, str.split on a slash, str.endswith, membership of a
slash, pathlib suffix and stem. -/

/-- Whitespace test matching Python str.strip on the ASCII range. -/
def isWS (c : Char) : Bool :=
  c == ' ' || c == '\t' || c == '\n' || c == '\r' || c == Char.ofNat 11 || c == Char.ofNat 12

/-- Python str.strip on a character list. -/
def stripC (l : List Char) : List Char :=
  ((l.dropWhile isWS).reverse.dropWhile isWS).reverse

/-- Python str.strip on a string. -/
def pyStrip (s : String) : String := String.mk (stripC s.data)

/-- pfxC t l is true when t is an initial run of l. -/
def pfxC : List Char → List Char → Bool
  | [], _ => true
  | _ :: _, [] => false
  | a :: as, b :: bs => a == b && pfxC as bs

/-- endsC l t is Python l.endswith(t). -/
def endsC (l t : List Char) : Bool := pfxC t.reverse l.reverse

/-- Python s.split on a single slash separator. -/
def splitSeg : List Char → List (List Char)
  | [] => [[]]
  | c :: cs =>
    match splitSeg cs with
    | [] => [[]]
    | h :: t => if c == '/' then [] :: h :: t else (c :: h) :: t

/-- Join segments with slash separators; inverse of splitSeg on clean segments. -/
def joinSegs : List (List Char) → List Char
  | [] => []
  | [s] => s
  | s :: rest => s ++ '/' :: joinSegs rest

/-- Index of the last dot of a name, if any. -/
def lastDotPos (l : List Char) : Option Nat :=
  match l.reverse.findIdx? (fun c => c == '.') with
  | none => none
  | some j => some (l.length - 1 - j)

/-- pathlib suffix of a file name: the part from the last dot, when the dot
is neither first nor last character, else empty. -/
def sfxOf (l : List Char) : List Char :=
  match lastDotPos l with
  | none => []
  | some i => if 0 < i && i + 1 < l.length then l.drop i else []

/-- pathlib stem of a file name: the name with its suffix removed. -/
def stemOf (l : List Char) : List Char :=
  match lastDotPos l with
  | none => l
  | some i => if 0 < i && i + 1 < l.length then l.take i else l

/-- pathlib Path(p).stem: stem of the final path component. -/
def pathStem (s : String) : String :=
  String.mk (stemOf ((splitSeg s.data).getLastD []))

/-- Lexicographic order on character lists, modelling Python string order. -/
def strLeB : List Char → List Char → Bool
  | [], _ => true
  | _ :: _, [] => false
  | a :: as, b :: bs => if a == b then strLeB as bs else decide (a < b)

/-! The filesystem model: a directory tree with named entries.  A mutual
inductive keeps every operation structurally recursive and computable. -/

mutual
/-- A filesystem node: a regular file with a byte size, or a directory. -/
inductive FSTree where
  | file (size : Nat) : FSTree
  | dir (es : FSEntries) : FSTree
/-- The named entries of a directory, in listing order. -/
inductive FSEntries where
  | nil : FSEntries
  | cons (name : String) (t : FSTree) (rest : FSEntries) : FSEntries
end

/-- Whether a directory listing contains an entry with the given name. -/
def hasName : FSEntries → String → Bool
  | .nil, _ => false
  | .cons m _ rest, n => m == n || hasName rest n

/-- First entry with the given name, as on a real filesystem where names
are unique. -/
def lookupE : FSEntries → String → Option FSTree
  | .nil, _ => none
  | .cons m t rest, n => if m == n then some t else lookupE rest n

/-- Replace the named entry by applying f to it, creating it as an empty
directory at the end of the listing when missing. -/
def updateEntry : FSEntries → String → (FSTree → FSTree) → FSEntries
  | .nil, n, f => .cons n (f (.dir .nil)) .nil
  | .cons m t rest, n, f =>
    if m == n then .cons m (f t) rest else .cons m t (updateEntry rest n f)

/-- Concatenation of directory listings. -/
def appE : FSEntries → FSEntries → FSEntries
  | .nil, bs => bs
  | .cons n t rest, bs => .cons n t (appE rest bs)

/-- A legal filesystem name component: nonempty and free of slashes. -/
def okSeg (s : String) : Bool :=
  !s.data.isEmpty && s.data.all (fun c => !(c == '/'))

mutual
/-- Well-formedness of a tree as found on a real filesystem: entry names in
each directory are legal name components and pairwise distinct. -/
def wfT : FSTree → Bool
  | .file _ => true
  | .dir es => wfE es
/-- Well-formedness of a directory listing. -/
def wfE : FSEntries → Bool
  | .nil => true
  | .cons n t rest => okSeg n && !(hasName rest n) && wfT t && wfE rest
end

mutual
/-- Structural size measure used for induction. -/
def tsizeT : FSTree → Nat
  | .file _ => 1
  | .dir es => tsizeE es + 1
/-- Structural size measure of a listing. -/
def tsizeE : FSEntries → Nat
  | .nil => 0
  | .cons _ t rest => tsizeT t + tsizeE rest + 1
end

mutual
/-- get_model_size from src/utils.py lines 11-27: a file contributes its own
size, a directory the recursive sum of all regular file sizes beneath it. -/
def get_model_size : FSTree → Nat
  | .file sz => sz
  | .dir es => sizeEntries es
/-- Total size of the files under a directory listing. -/
def sizeEntries : FSEntries → Nat
  | .nil => 0
  | .cons _ t rest => get_model_size t + sizeEntries rest
end

mutual
/-- All files of a tree as relative segment paths with their sizes. -/
def filesT : FSTree → List (List String × Nat)
  | .file sz => [([], sz)]
  | .dir es => filesE es
/-- Files of a directory listing, prefixed by their entry names. -/
def filesE : FSEntries → List (List String × Nat)
  | .nil => []
  | .cons n t rest =>
    (filesT t).map (fun pr => (n :: pr.1, pr.2)) ++ filesE rest
end

/-- Names of the regular files directly inside a directory listing, as the
filenames component of os.walk. -/
def fileNamesE : FSEntries → List String
  | .nil => []
  | .cons n (.file _) rest => n :: fileNamesE rest
  | .cons _ (.dir _) rest => fileNamesE rest

/-- Model-directory signature from src/utils.py lines 67-70: the immediate
file listing contains config.json or a name ending in .safetensors or .npz. -/
def matchesSignature (es : FSEntries) : Bool :=
  (fileNamesE es).any (fun n => n == "config.json") ||
  (fileNamesE es).any (fun n => endsC n.data ".safetensors".data || endsC n.data ".npz".data)

/-- Subtree of a tree at a relative segment path. -/
def getPath : FSTree → List String → Option FSTree
  | t, [] => some t
  | .file _, _ :: _ => none
  | .dir es, n :: p =>
    match lookupE es n with
    | some t => getPath t p
    | none => none

/-- Whether the directory at a relative path exists and matches the
model-directory signature. -/
def matchAt (t : FSTree) (p : List String) : Bool :=
  match getPath t p with
  | some (.dir es) => matchesSignature es
  | _ => false

/-- Create a file (some size) or directory (none) at a relative path,
creating intermediate directories, as zipfile extraction does. -/
def insertPath : List String → Option Nat → FSTree → FSTree
  | [], none, t => t
  | [], some sz, _ => .file sz
  | _ :: _, _, .file s => .file s
  | n :: rest, k, .dir es => .dir (updateEntry es n (insertPath rest k))

/-! Byte formatting: src/utils.py lines 30-46.  The Python one and two
decimal float formats are modelled by exact round-half-to-even, which is
the IEEE behaviour on the exactly representable quotients involved. -/

/-- Round num/den to the nearest integer, ties to even. -/
def roundHE (num den : Nat) : Nat :=
  let q := num / den
  let r := num % den
  if den < 2 * r then q + 1
  else if 2 * r == den then (if q % 2 == 1 then q + 1 else q) else q

/-- One-decimal fixed-point rendering of n/den. -/
def fmt1 (n den : Nat) : String :=
  let v := roundHE (n * 10) den
  toString (v / 10) ++ "." ++ toString (v % 10)

/-- Two-decimal fixed-point rendering of n/den. -/
def fmt2 (n den : Nat) : String :=
  let v := roundHE (n * 100) den
  let f := v % 100
  toString (v / 100) ++ "." ++ (if f < 10 then "0" ++ toString f else toString f)

/-- format_size from src/utils.py lines 30-46. -/
def format_size (size_bytes : Nat) : String :=
  if size_bytes < 1024 then toString size_bytes ++ " B"
  else if size_bytes < 1024 ^ 2 then fmt1 size_bytes 1024 ++ " KB"
  else if size_bytes < 1024 ^ 3 then fmt1 size_bytes (1024 ^ 2) ++ " MB"
  else fmt2 size_bytes (1024 ^ 3) ++ " GB"

/-! Model discovery: src/utils.py lines 49-80.  os.walk is top-down; on a
signature match the entry is recorded and dirnames is cleared, so traversal
never descends below a matched directory. -/

/-- A discovered model: final path segment, root-relative path, formatted size. -/
structure ModelEntry where
  name : String
  path : List String
  size : String
deriving DecidableEq

mutual
/-- Walk of a single node of the output tree. -/
def discoverT (base : List String) (name : String) : FSTree → List ModelEntry
  | .file _ => []
  | .dir es =>
    if matchesSignature es then [⟨name, base, format_size (sizeEntries es)⟩]
    else discoverE base es
/-- Walk of the child directories of a non-matching directory. -/
def discoverE (base : List String) : FSEntries → List ModelEntry
  | .nil => []
  | .cons n t rest => discoverT (base ++ [n]) n t ++ discoverE base rest
end

/-- Sort order of list_converted_models: ascending by entry name. -/
def entLe (a b : ModelEntry) : Prop := strLeB a.name.data b.name.data = true

instance : DecidableRel entLe := fun a b => inferInstanceAs (Decidable (_ = true))

/-- list_converted_models from src/utils.py lines 49-80 on an existing output
root, given the name of the root directory and its tree. -/
def list_converted_models (rootName : String) (t : FSTree) : List ModelEntry :=
  List.insertionSort entLe (discoverT [] rootName t)

/-! Zip archives.  An entry is a segment path plus either a file size or a
directory marker; its name is the slash-joined path, with a trailing slash
on directory entries, exactly as zipfile namelist reports them. -/

/-- One archive entry: path segments and file size (none marks a directory). -/
structure ZEntry where
  path : List String
  kind : Option Nat
deriving DecidableEq

/-- The namelist string of an entry. -/
def entryNameData (e : ZEntry) : List Char :=
  joinSegs (e.path.map String.data) ++
    (match e.kind with | none => ['/'] | some _ => [])

/-- Prepend a directory segment to an entry path. -/
def prepE (n : String) (e : ZEntry) : ZEntry := ⟨n :: e.path, e.kind⟩

mutual
/-- Entries written by shutil.make_archive for a subtree rooted at the given
archive path: the directory entry first, then its contents. -/
def zipT (pre : List String) : FSTree → List ZEntry
  | .file sz => [⟨pre, some sz⟩]
  | .dir es => ⟨pre, none⟩ :: zipE pre es
/-- Entries for the children of a directory, in listing order. -/
def zipE (pre : List String) : FSEntries → List ZEntry
  | .nil => []
  | .cons n t rest => zipT (pre ++ [n]) t ++ zipE pre rest
end

/-- Model-file validation of zip_model, src/utils.py lines 97-103: an
immediate regular file named config.json or with pathlib suffix
.safetensors or .npz. -/
def zip_hasModelFiles : FSEntries → Bool
  | .nil => false
  | .cons n (.file _) rest =>
    (n == "config.json" || sfxOf n.data == ".safetensors".data || sfxOf n.data == ".npz".data)
      || zip_hasModelFiles rest
  | .cons _ (.dir _) rest => zip_hasModelFiles rest

/-- zip_model from src/utils.py lines 83-112: given the base name of the
model directory and its tree, the archive produced by make_archive, or none
when the directory fails the model-file validation. -/
def zip_model (nm : String) (t : FSTree) : Option (List ZEntry) :=
  match t with
  | .file _ => none
  | .dir es => if zip_hasModelFiles es then some (zipT [nm] (.dir es)) else none

/-- Archive validation of import_model_zip, src/utils.py lines 136-139: some
entry name ends in config.json, .safetensors or .npz. -/
def impHasModelFiles (names : List (List Char)) : Bool :=
  names.any (fun n =>
    endsC n "config.json".data || endsC n ".safetensors".data || endsC n ".npz".data)

/-- Distinct top-level segments of the entry names containing a slash,
src/utils.py line 148. -/
def topDirs (names : List (List Char)) : List (List Char) :=
  ((names.filter (fun n => n.any (fun c => c == '/'))).map
    (fun n => (splitSeg n).headD [])).dedup

/-- Whether the output root already contains a top-level entry of this name. -/
def rootHas (root : FSTree) (nm : String) : Bool :=
  match root with
  | .file _ => false
  | .dir es => hasName es nm

/-- First element of a segment list, the unique element when there is
exactly one. -/
def theHead (l : List (List Char)) : List Char := l.headD []

/-- Destination name resolved by import_model_zip, src/utils.py lines
147-166: the unique top-level segment, else the stem of the archive name. -/
def resolvedDest (zipPath : String) (names : List (List Char)) : String :=
  if (topDirs names).length == 1 then String.mk (theHead (topDirs names))
  else pathStem zipPath

/-- zipfile extractall of the entries under the target path of the root. -/
def extractAll (root : FSTree) (tp : List String) (entries : List ZEntry) : FSTree :=
  entries.foldl (fun r e => insertPath (tp ++ e.path) e.kind r) root

/-- Failure classes of import_model_zip. -/
inductive ImportErr where
  | invalidZip
  | alreadyExists (name : String)
deriving DecidableEq

/-- Outcome record of import_model_zip. -/
structure ImportRes where
  success : Bool
  err : Option ImportErr
  model_path : Option String
deriving DecidableEq

/-- import_model_zip from src/utils.py lines 115-186, modelled from the
point where the archive has been opened and its namelist read: validation,
top-level naming resolution, collision check, extraction.  Returns the
outcome together with the new output-root tree. -/
def import_model_zip (zipPath : String) (entries : List ZEntry) (root : FSTree) :
    ImportRes × FSTree :=
  let names := entries.map entryNameData
  if !(impHasModelFiles names) then (⟨false, some .invalidZip, none⟩, root)
  else
    let tds := topDirs names
    if tds.length == 1 then
      let nm := String.mk (theHead tds)
      if rootHas root nm then (⟨false, some (.alreadyExists nm), none⟩, root)
      else (⟨true, none, some nm⟩, extractAll root [] entries)
    else
      let nm := pathStem zipPath
      if rootHas root nm then (⟨false, some (.alreadyExists nm), none⟩, root)
      else (⟨true, none, some nm⟩, extractAll (insertPath [nm] none root) [nm] entries)

/-! Conversion gateway: src/converter.py. -/

/-- validate_model_path from src/converter.py lines 8-29, as the success
flag of the returned pair. -/
def validate_model_path (model_path : String) : Bool :=
  if model_path == "" || pyStrip model_path == "" then false
  else
    let mp := (pyStrip model_path).data
    if !(mp.any (fun c => c == '/')) then false
    else
      match splitSeg mp with
      | [a, b] => !a.isEmpty && !b.isEmpty
      | _ => false

/-- get_output_path from src/converter.py lines 32-42. -/
def get_output_path (output_name : String) (output_dir : String) : String :=
  output_dir ++ "/" ++ output_name

/-- The three recognized quantization options, src/converter.py lines 68-72. -/
def quantValid (q : String) : Bool := q == "4-bit" || q == "8-bit" || q == "bf16"

/-- Default output name, src/converter.py lines 83-86: last slash segment of
the raw identifier plus the quantization tag. -/
def defaultOutputName (model_path quantization : String) : String :=
  String.mk ((splitSeg model_path.data).getLastD []) ++
    (if quantization == "4-bit" then "-q4"
     else if quantization == "8-bit" then "-q8" else "-bf16")

/-- Output name resolution, src/converter.py line 83. -/
def resolveOutputName (model_path output_name quantization : String) : String :=
  if pyStrip output_name == "" then defaultOutputName model_path quantization
  else output_name

/-- Keyword arguments passed to the external conversion engine,
src/converter.py lines 119-125. -/
structure EngineArgs where
  hf_path : String
  mlx_path : String
  quantize : Bool
  q_bits : Option Nat
deriving DecidableEq

/-- Failure classes of convert_model before the engine call. -/
inductive ConvErr where
  | invalidPath
  | invalidQuant
  | outputExists (p : String)
  | lowDisk
deriving DecidableEq

/-- How far convert_model got: an early failure, or the engine invocation
with its arguments. -/
inductive ConvStep where
  | failed (e : ConvErr)
  | invoked (args : EngineArgs)
deriving DecidableEq

/-- Whether the best-effort free-space check passes (none: check failed,
which the source treats as non-fatal). -/
def diskOk : Option Nat → Bool
  | none => true
  | some fs => decide (2 * 1024 ^ 3 ≤ fs)

/-- convert_model from src/converter.py lines 45-127 up to the engine call:
identifier validation, quantization mapping, output-name resolution,
overwrite refusal, disk check.  exOut tells which output paths already
exist; free is the reported free space.  The Bool records whether the
os.makedirs filesystem write was reached. -/
def convert_model (model_path output_name quantization output_dir : String)
    (exOut : String → Bool) (free : Option Nat) : ConvStep × Bool :=
  if !(validate_model_path model_path) then (.failed .invalidPath, false)
  else if !(quantValid quantization) then (.failed .invalidQuant, false)
  else
    let oname := resolveOutputName model_path output_name quantization
    let opath := get_output_path oname output_dir
    let args : EngineArgs :=
      ⟨model_path, opath, !(quantization == "bf16"),
        if quantization == "4-bit" then some 4
        else if quantization == "8-bit" then some 8 else none⟩
    if exOut opath then (.failed (.outputExists opath), false)
    else
      match free with
      | some fs =>
        if fs < 2 * 1024 ^ 3 then (.failed .lowDisk, false) else (.invoked args, true)
      | none => (.invoked args, true)

/-- The rejected-identifier set described by the specification: blank, no
slash, or the stripped form does not split into exactly two nonempty
segments. -/
def badIdentifier (s : String) : Bool :=
  pyStrip s == "" || !((pyStrip s).data.any (fun c => c == '/')) ||
    (match splitSeg (pyStrip s).data with
     | [a, b] => a.isEmpty || b.isEmpty
     | _ => true)

/-! Inference cache: src/tester.py.  The engine load is abstracted by the
handle values a fresh load would produce; the trailing Bool of load_model
records whether a fresh engine load happened (false: cache hit). -/

/-- The process-wide single-slot cache of src/tester.py lines 5-10. -/
structure CacheSt where
  path : Option String
  model : Option Nat
  tokenizer : Option Nat
deriving DecidableEq

/-- The initial empty cache. -/
def emptyCache : CacheSt := ⟨none, none, none⟩

/-- load_model from src/tester.py lines 13-53, on the success path: cache
hit when the stored path matches and a model is cached, else a fresh engine
load that replaces the whole cache slot. -/
def load_model (st : CacheSt) (model_path : String) (h tk : Nat) :
    CacheSt × Nat × Nat × Bool :=
  if st.path == some model_path && st.model.isSome then
    (st, st.model.getD 0, st.tokenizer.getD 0, false)
  else
    (⟨some model_path, some h, some tk⟩, h, tk, true)

/-- clear_cache from src/tester.py lines 109-113. -/
def clear_cache (st : CacheSt) : CacheSt := ⟨none, none, none⟩

/-- One cache-affecting operation: a successful load or a clear. -/
inductive COp where
  | load (p : String) (h tk : Nat)
  | clear
deriving DecidableEq

/-- State transition of one operation. -/
def stepOp (st : CacheSt) : COp → CacheSt
  | .load p h tk => (load_model st p h tk).1
  | .clear => clear_cache st

/-- Run a sequence of operations. -/
def runOps (st : CacheSt) (ops : List COp) : CacheSt := ops.foldl stepOp st

/-- Path of the most recent successful load in the sequence, threading an
initial value. -/
def lastLoadAux (a : Option String) (ops : List COp) : Option String :=
  ops.foldl (fun acc op => match op with | .load p _ _ => some p | .clear => acc) a

/-- Path of the most recent successful load of a sequence. -/
def lastLoadPath (ops : List COp) : Option String := lastLoadAux none ops


/-- Membership test of a discovered entry by its root-relative path. -/
def pPred (p : List String) : ModelEntry → Bool := fun e => decide (e.path = p)

/-- One extraction step of extractAll with an empty target path. -/
def insStep : FSTree → ZEntry → FSTree
  | r, ⟨p, k⟩ => insertPath p k r

/-! Theorems about the embedded program. -/

theorem stepOp_load_path (st : CacheSt) (p : String) (h tk : Nat) :
    (stepOp st (.load p h tk)).path = some p := by
  simp only [stepOp, load_model]
  split
  · next hc =>
    have h1 : st.path = some p := by
      have := (Bool.and_eq_true _ _).mp hc
      simpa using this.1
    simpa using h1
  · rfl

theorem cache_lastLoad (ops : List COp) (st : CacheSt) (a : Option String)
    (hinit : ∀ q, st.path = some q → a = some q) :
    ∀ q, (runOps st ops).path = some q → lastLoadAux a ops = some q := by
  induction ops generalizing st a with
  | nil => simpa [runOps, lastLoadAux] using hinit
  | cons op rest ih =>
    intro q hq
    cases op with
    | load p hh tk =>
      refine ih (stepOp st (.load p hh tk)) (some p) ?_ q (by simpa [runOps] using hq)
      intro q2 hq2
      rw [stepOp_load_path] at hq2
      simpa using hq2
    | clear =>
      refine ih (stepOp st .clear) a ?_ q (by simpa [runOps] using hq)
      intro q2 hq2
      simp [stepOp, clear_cache] at hq2

/-- C5: across every sequence of load and clear operations the single-slot
cache is valid only when its stored path is the path of the most recent
successful load; loading path A, then B, then A again performs a fresh
engine load each time when A and B differ; and clear_cache resets the slot
so that the next load is fresh regardless of path match. -/
theorem c5_cache_invariant :
    (∀ ops q, (runOps emptyCache ops).path = some q → lastLoadPath ops = some q) ∧
    (∀ A B : String, ∀ h1 t1 h2 t2 h3 t3 : Nat, A ≠ B →
      (load_model emptyCache A h1 t1).2.2.2 = true ∧
      (load_model (load_model emptyCache A h1 t1).1 B h2 t2).2.2.2 = true ∧
      (load_model (load_model (load_model emptyCache A h1 t1).1 B h2 t2).1 A h3 t3).2.2.2
        = true) ∧
    (∀ st p h tk, (load_model (clear_cache st) p h tk).2.2.2 = true) := by
  refine ⟨?_, ?_, ?_⟩
  · intro ops q h
    exact cache_lastLoad ops emptyCache none (by simp [emptyCache]) q h
  · intro A B h1 t1 h2 t2 h3 t3 hAB
    have hAB2 : B ≠ A := fun h => hAB h.symm
    simp [load_model, emptyCache, hAB, hAB2]
  · intro st p h tk
    simp [load_model, clear_cache]

/-- C5 witness: a concrete run exercising the invariant, the A-B-A
sequence and the clear-then-load freshness. -/
theorem c5_witness :
    lastLoadPath [COp.load "a" 1 2] = some "a" ∧
    ((load_model (load_model (load_model emptyCache "a" 1 1).1 "b" 2 2).1 "a" 3 3).2.2.2
        = true) ∧
    (load_model (clear_cache emptyCache) "a" 1 2).2.2.2 = true :=
  ⟨c5_cache_invariant.1 [COp.load "a" 1 2] "a" (by decide),
   (c5_cache_invariant.2.1 "a" "b" 1 1 2 2 3 3 (by decide)).2.2,
   c5_cache_invariant.2.2 emptyCache "a" 1 2⟩

/-- C9: format_size uses thresholds at 1024, 1024 squared and 1024 cubed,
rendering bytes, one-decimal KB, one-decimal MB and two-decimal GB, with
boundary values in the next unit up, and takes the specified values at
0, 1023, 1024, 3 MiB and 1.5 GiB. -/
theorem c9_format_size (n : Nat) :
    (n < 1024 → format_size n = toString n ++ " B") ∧
    (1024 ≤ n → n < 1024 ^ 2 → format_size n = fmt1 n 1024 ++ " KB") ∧
    (1024 ^ 2 ≤ n → n < 1024 ^ 3 → format_size n = fmt1 n (1024 ^ 2) ++ " MB") ∧
    (1024 ^ 3 ≤ n → format_size n = fmt2 n (1024 ^ 3) ++ " GB") ∧
    format_size 0 = "0 B" ∧ format_size 1023 = "1023 B" ∧
    format_size 1024 = "1.0 KB" ∧ format_size (1024 * 1024 * 3) = "3.0 MB" ∧
    format_size 1610612736 = "1.50 GB" := by
  refine ⟨?_, ?_, ?_, ?_, by decide, by decide, by decide, by decide, by decide⟩
  · intro h
    unfold format_size
    rw [if_pos h]
  · intro h1 h2
    unfold format_size
    rw [if_neg (by omega), if_pos h2]
  · intro h1 h2
    unfold format_size
    rw [if_neg (by omega), if_neg (by omega), if_pos h2]
  · intro h1
    unfold format_size
    rw [if_neg (by omega), if_neg (by omega), if_neg (by omega)]

/-- C9 witness: the KB branch applied at 2048 bytes. -/
theorem c9_witness : format_size 2048 = fmt1 2048 1024 ++ " KB" :=
  (c9_format_size 2048).2.1 (by omega) (by omega)

theorem validate_not_bad (s : String) (h : validate_model_path s = true) :
    badIdentifier s = false := by
  unfold validate_model_path at h
  by_cases h0 : (s == "" || pyStrip s == "") = true
  · rw [if_pos h0] at h
    exact absurd h (by simp)
  · rw [if_neg h0] at h
    have h0f : (s == "" || pyStrip s == "") = false := by simpa using h0
    obtain ⟨hs0, hstrip⟩ := Bool.or_eq_false_iff.mp h0f
    by_cases hany : ((pyStrip s).data.any (fun c => c == '/')) = true
    · have h2 : (match splitSeg (pyStrip s).data with
          | [a, b] => !a.isEmpty && !b.isEmpty
          | _ => false) = true := by
        simpa [hany] using h
      rcases hsp : splitSeg (pyStrip s).data with _ | ⟨a, _ | ⟨b, _ | ⟨c, r⟩⟩⟩
      · rw [hsp] at h2
        exact absurd h2 (by simp)
      · rw [hsp] at h2
        exact absurd h2 (by simp)
      · rw [hsp] at h2
        simp only [Bool.and_eq_true, Bool.not_eq_true'] at h2
        simp [badIdentifier, hstrip, hany, hsp, h2.1, h2.2]
      · rw [hsp] at h2
        exact absurd h2 (by simp)
    · have hanyf : ((pyStrip s).data.any (fun c => c == '/')) = false := by
        revert hany
        cases ((pyStrip s).data.any (fun c => c == '/')) <;> simp
      simp [hanyf] at h

theorem badIdentifier_invalid (s : String) (h : badIdentifier s = true) :
    validate_model_path s = false := by
  by_cases hv : validate_model_path s = true
  · rw [validate_not_bad s hv] at h
    exact absurd h (by simp)
  · simpa using hv

/-- C8: a rejected identifier (blank, slash-free, or not two nonempty
slash-separated segments) or an unrecognized quantization value makes
convert_model return a validation failure before the engine call and
before any filesystem write. -/
theorem c8_validation (model_path output_name quantization output_dir : String)
    (exOut : String → Bool) (free : Option Nat)
    (hbad : badIdentifier model_path = true ∨ quantValid quantization = false) :
    ∃ e, convert_model model_path output_name quantization output_dir exOut free
      = (.failed e, false) := by
  rcases hbad with hb | hq
  · exact ⟨.invalidPath, by simp [convert_model, badIdentifier_invalid model_path hb]⟩
  · by_cases hv : validate_model_path model_path = true
    · exact ⟨.invalidQuant, by simp [convert_model, hv, hq]⟩
    · exact ⟨.invalidPath, by simp [convert_model, Bool.not_eq_true _ ▸ hv]⟩

/-- C8 witness: the identifier with no separator is rejected. -/
theorem c8_witness :
    ∃ e, convert_model "invalidpath" "" "4-bit" "./models" (fun _ => false) none
      = (.failed e, false) :=
  c8_validation "invalidpath" "" "4-bit" "./models" (fun _ => false) none
    (Or.inl (by decide))

/-- C7: whenever the resolved output path already exists, convert_model
returns a failure and the conversion engine is never invoked. -/
theorem c7_overwrite_refusal (model_path output_name quantization output_dir : String)
    (exOut : String → Bool) (free : Option Nat)
    (hex : exOut (get_output_path
      (resolveOutputName model_path output_name quantization) output_dir) = true) :
    ∃ e, convert_model model_path output_name quantization output_dir exOut free
      = (.failed e, false) := by
  by_cases hv : validate_model_path model_path = true
  · by_cases hq : quantValid quantization = true
    · exact ⟨.outputExists (get_output_path
        (resolveOutputName model_path output_name quantization) output_dir),
        by simp [convert_model, hv, hq, hex]⟩
    · exact ⟨.invalidQuant, by simp [convert_model, hv, Bool.not_eq_true _ ▸ hq]⟩
  · exact ⟨.invalidPath, by simp [convert_model, Bool.not_eq_true _ ▸ hv]⟩

/-- C7 witness: an existing default output path blocks the conversion. -/
theorem c7_witness :
    ∃ e, convert_model "org/model" "" "4-bit" "./models"
      (fun p => p == "./models/model-q4") none = (.failed e, false) :=
  c7_overwrite_refusal "org/model" "" "4-bit" "./models"
    (fun p => p == "./models/model-q4") none (by decide)

/-- C10: an identifier that validates only after stripping is passed to the
engine unstripped, and the default output name is derived from the
unstripped identifier, so surrounding whitespace propagates into both. -/
theorem c10_whitespace (model_path quantization output_dir : String)
    (exOut : String → Bool) (free : Option Nat)
    (hv : validate_model_path model_path = true)
    (hq : quantValid quantization = true)
    (hws : model_path ≠ pyStrip model_path)
    (hex : exOut (get_output_path (defaultOutputName model_path quantization) output_dir)
      = false)
    (hfree : diskOk free = true) :
    convert_model model_path "" quantization output_dir exOut free =
      (.invoked ⟨model_path,
        get_output_path (defaultOutputName model_path quantization) output_dir,
        !(quantization == "bf16"),
        if quantization == "4-bit" then some 4
        else if quantization == "8-bit" then some 8 else none⟩, true) := by
  have hres : resolveOutputName model_path "" quantization
      = defaultOutputName model_path quantization := by
    simp [resolveOutputName, pyStrip, stripC]
  cases free with
  | none => simp [convert_model, hv, hq, hres, hex]
  | some fs =>
    have h2 : 2 * 1024 ^ 3 ≤ fs := by simpa [diskOk] using hfree
    have h3 : ¬ fs < 2147483648 := by omega
    simp [convert_model, hv, hq, hres, hex, h3]

/-- C10 witness: the identifier with surrounding spaces validates, reaches
the engine unstripped, and yields an output name containing the space. -/
theorem c10_witness :
    convert_model " org/model " "" "4-bit" "./models" (fun _ => false) none =
      (.invoked ⟨" org/model ", "./models/model -q4", true, some 4⟩, true) := by
  have h := c10_whitespace " org/model " "4-bit" "./models" (fun _ => false) none
    (by decide) (by decide) (by decide) (by decide) (by decide)
  simpa using h

/-- C3: import shape normalization; with the archive validation passed,
exactly one distinct top-level segment makes that segment the destination
name and extracts the whole archive directly under the output root, while
zero or several top-level segments make the archive stem the destination
name, create that directory and extract all contents into it. -/
theorem c3_shape (zipPath : String) (entries : List ZEntry) (root : FSTree)
    (hv : impHasModelFiles (entries.map entryNameData) = true) :
    ((topDirs (entries.map entryNameData)).length = 1 →
      resolvedDest zipPath (entries.map entryNameData)
        = String.mk (theHead (topDirs (entries.map entryNameData))) ∧
      (rootHas root (String.mk (theHead (topDirs (entries.map entryNameData)))) = false →
        import_model_zip zipPath entries root =
          (⟨true, none, some (String.mk (theHead (topDirs (entries.map entryNameData))))⟩,
            extractAll root [] entries))) ∧
    ((topDirs (entries.map entryNameData)).length ≠ 1 →
      resolvedDest zipPath (entries.map entryNameData) = pathStem zipPath ∧
      (rootHas root (pathStem zipPath) = false →
        import_model_zip zipPath entries root =
          (⟨true, none, some (pathStem zipPath)⟩,
            extractAll (insertPath [pathStem zipPath] none root)
              [pathStem zipPath] entries))) := by
  constructor
  · intro hlen
    refine ⟨by simp [resolvedDest, hlen], fun hroot => ?_⟩
    simp [import_model_zip, hv, hlen, hroot]
  · intro hlen
    refine ⟨by simp [resolvedDest, hlen], fun hroot => ?_⟩
    simp [import_model_zip, hv, hlen, hroot]

/-- C3 witness: a single-top-folder archive lands at that folder under the
root, and a flat archive named bar.zip lands in a created directory bar. -/
theorem c3_witness :
    (import_model_zip "up/x.zip" [⟨["foo"], none⟩, ⟨["foo", "config.json"], some 2⟩]
        (.dir .nil) =
      (⟨true, none, some "foo"⟩,
        extractAll (.dir .nil) [] [⟨["foo"], none⟩, ⟨["foo", "config.json"], some 2⟩])) ∧
    (import_model_zip "bar.zip" [⟨["config.json"], some 2⟩] (.dir .nil) =
      (⟨true, none, some "bar"⟩,
        extractAll (insertPath ["bar"] none (.dir .nil)) ["bar"]
          [⟨["config.json"], some 2⟩])) := by
  constructor
  · exact ((c3_shape "up/x.zip" [⟨["foo"], none⟩, ⟨["foo", "config.json"], some 2⟩]
      (.dir .nil) (by decide)).1 (by decide)).2 (by decide)
  · exact ((c3_shape "bar.zip" [⟨["config.json"], some 2⟩]
      (.dir .nil) (by decide)).2 (by decide)).2 (by decide)

/-- C4: when the resolved destination already exists under the output root
the import fails with an already-exists error and the output root tree is
returned unchanged, so no extraction happens and the existing destination
keeps its contents. -/
theorem c4_collision (zipPath : String) (entries : List ZEntry) (root : FSTree)
    (hv : impHasModelFiles (entries.map entryNameData) = true)
    (hex : rootHas root (resolvedDest zipPath (entries.map entryNameData)) = true) :
    import_model_zip zipPath entries root =
      (⟨false, some (.alreadyExists (resolvedDest zipPath (entries.map entryNameData))),
        none⟩, root) := by
  by_cases hlen : (topDirs (entries.map entryNameData)).length = 1
  · have hd : resolvedDest zipPath (entries.map entryNameData)
        = String.mk (theHead (topDirs (entries.map entryNameData))) := by
      simp [resolvedDest, hlen]
    rw [hd] at hex
    simp [import_model_zip, hv, hlen, hex, hd]
  · have hd : resolvedDest zipPath (entries.map entryNameData) = pathStem zipPath := by
      simp [resolvedDest, hlen]
    rw [hd] at hex
    simp [import_model_zip, hv, hlen, hex, hd]

/-- C4 witness: importing a foo archive over an existing foo directory
fails and leaves the root unchanged. -/
theorem c4_witness :
    import_model_zip "x.zip" [⟨["foo"], none⟩, ⟨["foo", "config.json"], some 2⟩]
        (.dir (.cons "foo" (.dir .nil) .nil)) =
      (⟨false, some (.alreadyExists "foo"), none⟩, .dir (.cons "foo" (.dir .nil) .nil)) := by
  have h := c4_collision "x.zip" [⟨["foo"], none⟩, ⟨["foo", "config.json"], some 2⟩]
    (.dir (.cons "foo" (.dir .nil) .nil)) (by decide) (by decide)
  simpa using h


theorem mem_discoverE : ∀ (es : FSEntries) (base : List String) (d : String)
    (ds : FSEntries), lookupE es d = some (.dir ds) → matchesSignature ds = true →
    (base ++ [d]) ∈ (discoverE base es).map ModelEntry.path
  | .nil, base, d, ds, hl, hm => by simp [lookupE] at hl
  | .cons m t rest, base, d, ds, hl, hm => by
    rw [lookupE] at hl
    by_cases hmd : (m == d) = true
    · rw [if_pos hmd] at hl
      have hmd2 : m = d := by simpa using hmd
      have ht : t = .dir ds := by injection hl
      subst hmd2
      subst ht
      rw [discoverE]
      simp [discoverT, hm]
    · rw [if_neg hmd] at hl
      have hrec := mem_discoverE rest base d ds hl hm
      rw [discoverE]
      rw [List.map_append]
      exact List.mem_append_right _ hrec

/-- C6 counterexample: an accepted archive whose only model file sits one
level below the single top folder imports successfully to destination a,
yet discovery over the output root afterwards reports a/sub and never the
destination a itself. -/
theorem c6_counterexample :
    (import_model_zip "m.zip" [⟨["a", "sub", "config.json"], some 1⟩] (.dir .nil)).1.success
      = true ∧
    (import_model_zip "m.zip" [⟨["a", "sub", "config.json"], some 1⟩]
      (.dir .nil)).1.model_path = some "a" ∧
    ∀ e ∈ list_converted_models "models"
        (import_model_zip "m.zip" [⟨["a", "sub", "config.json"], some 1⟩] (.dir .nil)).2,
      e.path ≠ ["a"] := by decide

/-- C6 amended: for every archive accepted and successfully extracted
by import_model_zip, when the destination directory itself matches the
model-directory signature after extraction and the output root itself does
not, a subsequent discovery pass over the output root reports the imported
destination as a model directory. -/
theorem c6_import_discover (zipPath : String) (entries : List ZEntry) (root : FSTree)
    (rootName d : String)
    (hs : (import_model_zip zipPath entries root).1.success = true)
    (hd : (import_model_zip zipPath entries root).1.model_path = some d)
    (hmatch : matchAt (import_model_zip zipPath entries root).2 [d] = true)
    (hroot : matchAt (import_model_zip zipPath entries root).2 [] = false) :
    [d] ∈ (list_converted_models rootName
        (import_model_zip zipPath entries root).2).map ModelEntry.path := by
  generalize (import_model_zip zipPath entries root).2 = R at hmatch hroot ⊢
  cases R with
  | file sz => simp [matchAt, getPath] at hmatch
  | dir es =>
    have hes : matchesSignature es = false := by
      simpa [matchAt, getPath] using hroot
    rcases hl : lookupE es d with _ | t
    · simp [matchAt, getPath, hl] at hmatch
    · cases t with
      | file sz => simp [matchAt, getPath, hl] at hmatch
      | dir ds =>
        have hm : matchesSignature ds = true := by
          simpa [matchAt, getPath, hl] using hmatch
        have hmem : [d] ∈ (discoverE [] es).map ModelEntry.path := by
          simpa using mem_discoverE es [] d ds hl hm
        rw [list_converted_models, discoverT, if_neg (by simp [hes])]
        obtain ⟨e, he, hpe⟩ := List.mem_map.mp hmem
        exact List.mem_map.mpr
          ⟨e, (List.perm_insertionSort entLe (discoverE [] es)).mem_iff.mpr he, hpe⟩

/-- C6 witness: a flat archive bar.zip holding config.json imports to the
created directory bar, which discovery then reports. -/
theorem c6_witness :
    (import_model_zip "bar.zip" [⟨["config.json"], some 1⟩] (.dir .nil)).1.success = true ∧
    (import_model_zip "bar.zip" [⟨["config.json"], some 1⟩] (.dir .nil)).1.model_path
      = some "bar" ∧
    ["bar"] ∈ (list_converted_models "models"
        (import_model_zip "bar.zip" [⟨["config.json"], some 1⟩] (.dir .nil)).2).map
        ModelEntry.path :=
  ⟨by decide, by decide,
    c6_import_discover "bar.zip" [⟨["config.json"], some 1⟩] (.dir .nil) "models" "bar"
      (by decide) (by decide) (by decide) (by decide)⟩


theorem matchAt_nil (es : FSEntries) : matchAt (.dir es) [] = matchesSignature es := rfl

theorem matchAt_cons (es : FSEntries) (n : String) (q : List String) :
    matchAt (.dir es) (n :: q) =
      (match lookupE es n with | some c => matchAt c q | none => false) := by
  cases hl : lookupE es n with
  | none => simp [matchAt, getPath, hl]
  | some c => simp [matchAt, getPath, hl]

theorem cond_cons (es : FSEntries) (c : FSTree) (n : String) (q : List String)
    (hes : matchesSignature es = false) (hl : lookupE es n = some c) :
    ((matchAt (.dir es) (n :: q) = true ∧
        ∀ k < (n :: q).length, matchAt (.dir es) ((n :: q).take k) = false) ↔
      (matchAt c q = true ∧ ∀ k < q.length, matchAt c (q.take k) = false)) := by
  have hmc : matchAt (.dir es) (n :: q) = matchAt c q := by
    rw [matchAt_cons, hl]
  constructor
  · rintro ⟨h1, h2⟩
    refine ⟨by rw [← hmc]; exact h1, fun k hk => ?_⟩
    have h3 := h2 (k + 1) (by simpa using Nat.succ_lt_succ hk)
    rw [List.take_succ_cons] at h3
    rwa [matchAt_cons, hl] at h3
  · rintro ⟨h1, h2⟩
    refine ⟨by rw [hmc]; exact h1, fun k hk => ?_⟩
    cases k with
    | zero => simpa [matchAt_nil] using hes
    | succ j =>
      rw [List.take_succ_cons, matchAt_cons, hl]
      exact h2 j (by simpa using hk)

theorem wf_lookup : ∀ (es : FSEntries) (n : String) (c : FSTree), wfE es = true →
    lookupE es n = some c → wfT c = true
  | .nil, n, c, hwf, hl => by simp [lookupE] at hl
  | .cons m t rest, n, c, hwf, hl => by
    rw [wfE] at hwf
    simp only [Bool.and_eq_true, Bool.not_eq_true'] at hwf
    obtain ⟨⟨⟨hok, hnm⟩, hwt⟩, hwr⟩ := hwf
    rw [lookupE] at hl
    by_cases hmn : (m == n) = true
    · rw [if_pos hmn] at hl
      have ht : t = c := by injection hl
      rw [← ht]
      exact hwt
    · rw [if_neg hmn] at hl
      exact wf_lookup rest n c hwr hl

mutual
theorem shape_discoverT : ∀ (t : FSTree) (base : List String) (name : String)
    (e : ModelEntry), e ∈ discoverT base name t → ∃ r, e.path = base ++ r
  | .file sz, base, name, e, he => by simp [discoverT] at he
  | .dir es, base, name, e, he => by
    rw [discoverT] at he
    by_cases hms : matchesSignature es = true
    · rw [if_pos hms] at he
      simp at he
      exact ⟨[], by simp [he]⟩
    · rw [if_neg hms] at he
      obtain ⟨n, r, hn, hp⟩ := shape_discoverE es base e he
      exact ⟨n :: r, hp⟩
theorem shape_discoverE : ∀ (es : FSEntries) (base : List String) (e : ModelEntry),
    e ∈ discoverE base es → ∃ n r, hasName es n = true ∧ e.path = base ++ n :: r
  | .nil, base, e, he => by simp [discoverE] at he
  | .cons m t rest, base, e, he => by
    rw [discoverE] at he
    rcases List.mem_append.mp he with h1 | h2
    · obtain ⟨r, hr⟩ := shape_discoverT t (base ++ [m]) m e h1
      exact ⟨m, r, by simp [hasName], by simpa [List.append_assoc] using hr⟩
    · obtain ⟨n, r, hn, hp⟩ := shape_discoverE rest base e h2
      exact ⟨n, r, by simp [hasName, hn], hp⟩
end

theorem countP_discoverE_zero (es : FSEntries) (base : List String) (p : List String)
    (h : ∀ n r, hasName es n = true → base ++ n :: r ≠ p) :
    (discoverE base es).countP (pPred p) = 0 := by
  rw [List.countP_eq_zero]
  intro e he
  obtain ⟨n, r, hn, hp⟩ := shape_discoverE es base e he
  simp only [pPred, decide_eq_true_eq]
  rw [hp]
  exact h n r hn

mutual
theorem count_discoverT : ∀ (t : FSTree) (base : List String) (name : String)
    (q : List String), wfT t = true →
    (discoverT base name t).countP (pPred (base ++ q)) =
      if (matchAt t q = true ∧ ∀ k < q.length, matchAt t (q.take k) = false)
      then 1 else 0
  | .file sz, base, name, q, hwf => by
    rw [discoverT]
    cases q with
    | nil => simp [matchAt, getPath]
    | cons a as => simp [matchAt, getPath]
  | .dir es, base, name, q, hwf => by
    have hwe : wfE es = true := by simpa [wfT] using hwf
    rw [discoverT]
    by_cases hms : matchesSignature es = true
    · rw [if_pos hms]
      cases q with
      | nil =>
        rw [if_pos ⟨by rw [matchAt_nil]; exact hms,
          fun k hk => absurd hk (by simp)⟩]
        simp [pPred, List.countP_cons]
      | cons a as =>
        have hne : ¬ (matchAt (.dir es) (a :: as) = true ∧
            ∀ k < (a :: as).length, matchAt (.dir es) ((a :: as).take k) = false) := by
          rintro ⟨h1, h2⟩
          have h3 := h2 0 (by simp)
          rw [List.take_zero, matchAt_nil, hms] at h3
          exact absurd h3 (by simp)
        rw [if_neg hne]
        have hbase : base ≠ base ++ a :: as := by
          intro h
          have := congrArg List.length h
          simp at this
        simp [pPred, List.countP_cons, hbase]
    · rw [if_neg hms]
      have hmsf : matchesSignature es = false := by simpa using hms
      cases q with
      | nil =>
        have hne : ¬ (matchAt (.dir es) ([] : List String) = true ∧
            ∀ k < ([] : List String).length,
              matchAt (.dir es) (([] : List String).take k) = false) := by
          rintro ⟨h1, h2⟩
          rw [matchAt_nil, hmsf] at h1
          exact absurd h1 (by simp)
        rw [if_neg hne, List.append_nil]
        apply countP_discoverE_zero
        intro n r hn heq
        have := congrArg List.length heq
        simp at this
      | cons n q2 =>
        rw [count_discoverE es base n q2 hwe]
        cases hl : lookupE es n with
        | none =>
          have hne : ¬ (matchAt (.dir es) (n :: q2) = true ∧
              ∀ k < (n :: q2).length, matchAt (.dir es) ((n :: q2).take k) = false) := by
            rintro ⟨h1, h2⟩
            rw [matchAt_cons, hl] at h1
            exact absurd h1 (by simp)
          rw [if_neg hne]
        | some c =>
          show (discoverT (base ++ [n]) n c).countP (pPred (base ++ n :: q2)) =
            if (matchAt (.dir es) (n :: q2) = true ∧
                ∀ k < (n :: q2).length, matchAt (.dir es) ((n :: q2).take k) = false)
            then 1 else 0
          have hwc : wfT c = true := wf_lookup es n c hwe hl
          have hcount := count_discoverT c (base ++ [n]) n q2 hwc
          have hpeq : (base ++ [n]) ++ q2 = base ++ n :: q2 := by simp
          rw [hpeq] at hcount
          rw [hcount]
          exact (if_congr (cond_cons es c n q2 hmsf hl) rfl rfl).symm
theorem count_discoverE : ∀ (es : FSEntries) (base : List String) (n : String)
    (q2 : List String), wfE es = true →
    (discoverE base es).countP (pPred (base ++ n :: q2)) =
      (match lookupE es n with
       | some c => (discoverT (base ++ [n]) n c).countP (pPred (base ++ n :: q2))
       | none => 0)
  | .nil, base, n, q2, hwf => by simp [discoverE, lookupE]
  | .cons m t rest, base, n, q2, hwf => by
    rw [wfE] at hwf
    simp only [Bool.and_eq_true, Bool.not_eq_true'] at hwf
    obtain ⟨⟨⟨hok, hnm⟩, hwt⟩, hwr⟩ := hwf
    rw [discoverE, List.countP_append, lookupE]
    by_cases hmn : (m == n) = true
    · have hmn2 : m = n := by simpa using hmn
      subst hmn2
      rw [if_pos (by simp)]
      have hz : (discoverE base rest).countP (pPred (base ++ m :: q2)) = 0 := by
        apply countP_discoverE_zero
        intro n2 r hn2 heq
        have h3 : n2 :: r = m :: q2 := List.append_cancel_left heq
        have h4 : n2 = m := (List.cons_eq_cons.mp h3).1
        rw [h4, hnm] at hn2
        exact absurd hn2 (by simp)
      rw [hz, Nat.add_zero]
    · rw [if_neg hmn]
      have hz : (discoverT (base ++ [m]) m t).countP (pPred (base ++ n :: q2)) = 0 := by
        rw [List.countP_eq_zero]
        intro e he
        obtain ⟨r, hr⟩ := shape_discoverT t (base ++ [m]) m e he
        simp only [pPred, decide_eq_true_eq]
        rw [hr, List.append_assoc]
        intro heq
        have h3 : m :: r = n :: q2 := by
          have := List.append_cancel_left heq
          simpa using this
        have h4 : m = n := (List.cons_eq_cons.mp h3).1
        rw [h4] at hmn
        exact hmn (by simp)
      rw [hz, count_discoverE rest base n q2 hwr]
      omega
end

/-- C2: on a well-formed output tree, the moment the walk reaches a
directory matching the model signature (no proper ancestor matches), that
directory is recorded exactly once among the discovered models, and no
descendant of it is reported as a separate entry, even one that itself
contains config.json. -/
theorem c2_discovery_leaf (rootName : String) (t : FSTree) (p : List String)
    (hwf : wfT t = true) (hm : matchAt t p = true)
    (hanc : ∀ k < p.length, matchAt t (p.take k) = false) :
    (list_converted_models rootName t).countP (pPred p) = 1 ∧
    ∀ e ∈ list_converted_models rootName t,
      ¬ (p.length < e.path.length ∧ e.path.take p.length = p) := by
  have hperm := List.perm_insertionSort entLe (discoverT [] rootName t)
  have hc1 : (discoverT [] rootName t).countP (pPred p) = 1 := by
    have h := count_discoverT t [] rootName p hwf
    rw [List.nil_append] at h
    rw [h, if_pos ⟨hm, hanc⟩]
  constructor
  · rw [list_converted_models, hperm.countP_eq]
    exact hc1
  · intro e he hcon
    obtain ⟨hlen, htake⟩ := hcon
    have he2 : e ∈ discoverT [] rootName t := by
      rw [list_converted_models] at he
      exact hperm.mem_iff.mp he
    have hneg : ¬ (matchAt t e.path = true ∧
        ∀ k < e.path.length, matchAt t (e.path.take k) = false) := by
      rintro ⟨h1, h2⟩
      have h3 := h2 p.length hlen
      rw [htake, hm] at h3
      exact absurd h3 (by simp)
    have hc0 : (discoverT [] rootName t).countP (pPred e.path) = 0 := by
      have h := count_discoverT t [] rootName e.path hwf
      rw [List.nil_append] at h
      rw [h, if_neg hneg]
    have hprE : pPred e.path e = true := by simp [pPred]
    have hpos := List.countP_pos_iff.mpr ⟨e, he2, hprE⟩
    omega

/-- C2 witness: a model directory m with a nested shard folder that itself
contains config.json is reported once, and the shard folder is never
reported. -/
theorem c2_witness :
    ((list_converted_models "models"
        (.dir (.cons "m" (.dir (.cons "config.json" (.file 1)
          (.cons "shard" (.dir (.cons "config.json" (.file 2) .nil)) .nil))) .nil))).countP
        (pPred ["m"]) = 1 ∧
      ∀ e ∈ list_converted_models "models"
          (.dir (.cons "m" (.dir (.cons "config.json" (.file 1)
            (.cons "shard" (.dir (.cons "config.json" (.file 2) .nil)) .nil))) .nil)),
        ¬ (["m"].length < e.path.length ∧ e.path.take ["m"].length = ["m"])) :=
  c2_discovery_leaf "models"
    (.dir (.cons "m" (.dir (.cons "config.json" (.file 1)
      (.cons "shard" (.dir (.cons "config.json" (.file 2) .nil)) .nil))) .nil))
    ["m"] (by decide) (by decide) (by decide)


/-! Lemmas for the export and import round trip. -/

theorem extractAll_nil (root : FSTree) (l : List ZEntry) :
    extractAll root [] l = List.foldl insStep root l := rfl

theorem appE_nil2 : ∀ (ds : FSEntries), appE ds .nil = ds
  | .nil => rfl
  | .cons m t rest => by rw [appE, appE_nil2 rest]

theorem appE_extend : ∀ (ds : FSEntries) (n : String) (c : FSTree) (rest : FSEntries),
    appE (appE ds (.cons n c .nil)) rest = appE ds (.cons n c rest)
  | .nil, n, c, rest => by simp [appE]
  | .cons m t r2, n, c, rest => by
    rw [appE, appE, appE, appE_extend r2 n c rest]

theorem hasName_appE : ∀ (ds es : FSEntries) (n : String),
    hasName (appE ds es) n = (hasName ds n || hasName es n)
  | .nil, es, n => by simp [appE, hasName]
  | .cons m t r2, es, n => by
    rw [appE, hasName, hasName, hasName_appE r2 es n, Bool.or_assoc]

theorem updE_missing : ∀ (es : FSEntries) (n : String) (f : FSTree → FSTree),
    hasName es n = false →
    updateEntry es n f = appE es (.cons n (f (.dir .nil)) .nil)
  | .nil, n, f, h => by rw [updateEntry, appE]
  | .cons m t rest, n, f, h => by
    rw [hasName] at h
    obtain ⟨h1, h2⟩ := Bool.or_eq_false_iff.mp h
    rw [updateEntry, if_neg (by simp [h1]), appE, updE_missing rest n f h2]

theorem updE_found : ∀ (ds : FSEntries) (n : String) (s : FSTree) (f : FSTree → FSTree),
    hasName ds n = false →
    updateEntry (appE ds (.cons n s .nil)) n f = appE ds (.cons n (f s) .nil)
  | .nil, n, s, f, h => by
    rw [appE, updateEntry, if_pos (by simp), appE]
  | .cons m t rest, n, s, f, h => by
    rw [hasName] at h
    obtain ⟨h1, h2⟩ := Bool.or_eq_false_iff.mp h
    rw [appE, updateEntry, if_neg (by simp [h1]), appE, updE_found rest n s f h2]

mutual
theorem zipT_pre : ∀ (t : FSTree) (a : String) (pre : List String),
    zipT (a :: pre) t = (zipT pre t).map (prepE a)
  | .file sz, a, pre => by simp [zipT, prepE]
  | .dir es, a, pre => by
    rw [zipT, zipT, List.map_cons, zipE_pre es a pre]
    rfl
theorem zipE_pre : ∀ (es : FSEntries) (a : String) (pre : List String),
    zipE (a :: pre) es = (zipE pre es).map (prepE a)
  | .nil, a, pre => by simp [zipE]
  | .cons n t rest, a, pre => by
    rw [zipE, zipE, List.map_append, ← zipT_pre t a (pre ++ [n]),
      ← zipE_pre rest a pre]
    rfl
end

theorem foldl_prep : ∀ (entries : List ZEntry) (ds : FSEntries) (n : String) (s : FSTree),
    hasName ds n = false →
    List.foldl insStep (.dir (appE ds (.cons n s .nil))) (entries.map (prepE n)) =
      .dir (appE ds (.cons n (List.foldl insStep s entries) .nil))
  | [], ds, n, s, h => by simp
  | e :: rest, ds, n, s, h => by
    rw [List.map_cons, List.foldl_cons, List.foldl_cons]
    have hstep : insStep (FSTree.dir (appE ds (.cons n s .nil))) (prepE n e) =
        .dir (appE ds (.cons n (insStep s e) .nil)) := by
      cases e with
      | mk p k =>
        calc insStep (FSTree.dir (appE ds (.cons n s .nil))) (prepE n ⟨p, k⟩)
            = .dir (updateEntry (appE ds (.cons n s .nil)) n (insertPath p k)) := rfl
          _ = .dir (appE ds (.cons n (insertPath p k s) .nil)) := by
              rw [updE_found ds n s (insertPath p k) h]
          _ = .dir (appE ds (.cons n (insStep s ⟨p, k⟩) .nil)) := rfl
    rw [hstep]
    exact foldl_prep rest ds n (insStep s e) h

mutual
theorem extract_zipT : ∀ (c : FSTree) (ds : FSEntries) (n : String),
    wfT c = true → hasName ds n = false →
    List.foldl insStep (.dir ds) (zipT [n] c) = .dir (appE ds (.cons n c .nil))
  | .file sz, ds, n, hwc, hn => by
    calc List.foldl insStep (.dir ds) (zipT [n] (.file sz))
        = .dir (updateEntry ds n (insertPath [] (some sz))) := rfl
      _ = .dir (appE ds (.cons n (insertPath [] (some sz) (.dir .nil)) .nil)) := by
          rw [updE_missing ds n _ hn]
      _ = .dir (appE ds (.cons n (.file sz) .nil)) := rfl
  | .dir cs, ds, n, hwc, hn => by
    have hwcs : wfE cs = true := by simpa [wfT] using hwc
    have h0 : zipT [n] (.dir cs) = ⟨[n], none⟩ :: (zipE [] cs).map (prepE n) := by
      show (⟨[n], none⟩ : ZEntry) :: zipE [n] cs = _
      rw [zipE_pre cs n []]
    rw [h0, List.foldl_cons]
    have h1 : insStep (.dir ds) ⟨[n], none⟩ = .dir (appE ds (.cons n (.dir .nil) .nil)) := by
      calc insStep (FSTree.dir ds) ⟨[n], none⟩
          = .dir (updateEntry ds n (insertPath [] none)) := rfl
        _ = .dir (appE ds (.cons n (insertPath [] none (.dir .nil)) .nil)) := by
            rw [updE_missing ds n _ hn]
        _ = .dir (appE ds (.cons n (.dir .nil) .nil)) := rfl
    rw [h1, foldl_prep (zipE [] cs) ds n (.dir .nil) hn,
      extract_zipE cs .nil hwcs (fun m _ => rfl)]
    rfl
theorem extract_zipE : ∀ (cs : FSEntries) (ds : FSEntries), wfE cs = true →
    (∀ m, hasName cs m = true → hasName ds m = false) →
    List.foldl insStep (.dir ds) (zipE [] cs) = .dir (appE ds cs)
  | .nil, ds, hw, hdisj => by
    show FSTree.dir ds = _
    rw [appE_nil2]
  | .cons m c rest, ds, hw, hdisj => by
    rw [wfE] at hw
    simp only [Bool.and_eq_true, Bool.not_eq_true'] at hw
    obtain ⟨⟨⟨hok, hnm⟩, hwc⟩, hwr⟩ := hw
    have hsplit : zipE [] (.cons m c rest) = zipT [m] c ++ zipE [] rest := rfl
    rw [hsplit, List.foldl_append,
      extract_zipT c ds m hwc (hdisj m (by simp [hasName]))]
    have hdisj2 : ∀ m2, hasName rest m2 = true →
        hasName (appE ds (.cons m c .nil)) m2 = false := by
      intro m2 hm2
      have hd1 : hasName ds m2 = false := hdisj m2 (by simp [hasName, hm2])
      have hne : (m == m2) = false := by
        by_cases he : m = m2
        · rw [← he] at hm2
          rw [hm2] at hnm
          exact absurd hnm (by simp)
        · simp [he]
      rw [hasName_appE]
      simp [hd1, hasName, hne]
    rw [extract_zipE rest (appE ds (.cons m c .nil)) hwr hdisj2, appE_extend]
end

/-! Lemmas about the names and top-level segments of an exported archive. -/

theorem pfxC_self_append : ∀ (a b : List Char), pfxC a (a ++ b) = true
  | [], b => rfl
  | c :: a, b => by simp [pfxC, pfxC_self_append a b]

theorem endsC_append (x t : List Char) : endsC (x ++ t) t = true := by
  unfold endsC
  rw [List.reverse_append]
  exact pfxC_self_append t.reverse x.reverse

theorem cons_shift (l r : List Char) (a : Char) : l ++ a :: r = (l ++ [a]) ++ r := by
  simp

theorem sfxOf_tail (l : List Char) : sfxOf l = [] ∨ ∃ p, l = p ++ sfxOf l := by
  unfold sfxOf
  split
  · exact Or.inl rfl
  · split
    · next i hc => exact Or.inr ⟨l.take _, (List.take_append_drop _ l).symm⟩
    · exact Or.inl rfl

theorem zipSig_entry : ∀ (es : FSEntries) (pre : List String),
    zip_hasModelFiles es = true →
    ∃ n sz, (⟨pre ++ [n], some sz⟩ : ZEntry) ∈ zipE pre es ∧
      (n == "config.json" || sfxOf n.data == ".safetensors".data
        || sfxOf n.data == ".npz".data) = true
  | .nil, pre, h => by simp [zip_hasModelFiles] at h
  | .cons n t rest, pre, h => by
    cases t with
    | file sz =>
      rw [zip_hasModelFiles] at h
      by_cases hc : (n == "config.json" || sfxOf n.data == ".safetensors".data
          || sfxOf n.data == ".npz".data) = true
      · refine ⟨n, sz, ?_, hc⟩
        show _ ∈ zipT (pre ++ [n]) (.file sz) ++ zipE pre rest
        exact List.mem_append_left _ (by simp [zipT])
      · have h2 : zip_hasModelFiles rest = true := by
          rcases (Bool.or_eq_true _ _).mp h with h3 | h3
          · exact absurd h3 hc
          · exact h3
        obtain ⟨n2, sz2, hmem, hp⟩ := zipSig_entry rest pre h2
        refine ⟨n2, sz2, ?_, hp⟩
        show _ ∈ zipT (pre ++ [n]) (.file sz) ++ zipE pre rest
        exact List.mem_append_right _ hmem
    | dir cs =>
      rw [zip_hasModelFiles] at h
      obtain ⟨n2, sz2, hmem, hp⟩ := zipSig_entry rest pre h
      refine ⟨n2, sz2, ?_, hp⟩
      show _ ∈ zipT (pre ++ [n]) (.dir cs) ++ zipE pre rest
      exact List.mem_append_right _ hmem

theorem hasModelFiles_zip (nm : String) (es : FSEntries)
    (h : zip_hasModelFiles es = true) :
    impHasModelFiles ((zipT [nm] (.dir es)).map entryNameData) = true := by
  obtain ⟨n, sz, hmem, hp⟩ := zipSig_entry es [nm] h
  rw [impHasModelFiles, List.any_eq_true]
  refine ⟨entryNameData ⟨[nm] ++ [n], some sz⟩, List.mem_map_of_mem _ ?_, ?_⟩
  · show _ ∈ (⟨[nm], none⟩ : ZEntry) :: zipE [nm] es
    exact List.mem_cons_of_mem _ hmem
  · have hname : entryNameData ⟨[nm] ++ [n], some sz⟩ = nm.data ++ '/' :: n.data := by
      simp [entryNameData, joinSegs]
    rw [hname]
    rcases (Bool.or_eq_true _ _).mp hp with hp12 | hp3
    · rcases (Bool.or_eq_true _ _).mp hp12 with hp1 | hp2
      · have hn : n = "config.json" := eq_of_beq hp1
        subst hn
        have he : endsC ("config.json".data ++ '/' :: "config.json".data)
            "config.json".data = true := by
          rw [cons_shift]
          exact endsC_append _ _
        rw [show nm.data = nm.data from rfl]
        have he2 : endsC (nm.data ++ '/' :: "config.json".data) "config.json".data
            = true := by
          rw [cons_shift]
          exact endsC_append _ _
        simp [he2]
      · have hsfx : sfxOf n.data = ".safetensors".data := eq_of_beq hp2
        rcases sfxOf_tail n.data with h0 | ⟨p, hp4⟩
        · rw [hsfx] at h0
          simp at h0
        · rw [hsfx] at hp4
          have he2 : endsC (nm.data ++ '/' :: n.data) ".safetensors".data = true := by
            rw [hp4, cons_shift, ← List.append_assoc]
            exact endsC_append _ _
          simp [he2]
    · have hsfx : sfxOf n.data = ".npz".data := eq_of_beq hp3
      rcases sfxOf_tail n.data with h0 | ⟨p, hp4⟩
      · rw [hsfx] at h0
        simp at h0
      · rw [hsfx] at hp4
        have he2 : endsC (nm.data ++ '/' :: n.data) ".npz".data = true := by
          rw [hp4, cons_shift, ← List.append_assoc]
          exact endsC_append _ _
        simp [he2]


mutual
theorem pathPre_T : ∀ (t : FSTree) (pre : List String) (e : ZEntry),
    e ∈ zipT pre t → ∃ q, e.path = pre ++ q
  | .file sz, pre, e, he => by
    rw [zipT] at he
    simp at he
    exact ⟨[], by simp [he]⟩
  | .dir cs, pre, e, he => by
    rw [zipT] at he
    rcases List.mem_cons.mp he with h1 | h2
    · exact ⟨[], by simp [h1]⟩
    · obtain ⟨n, q, hq⟩ := pathPre_E cs pre e h2
      exact ⟨n :: q, hq⟩
theorem pathPre_E : ∀ (es : FSEntries) (pre : List String) (e : ZEntry),
    e ∈ zipE pre es → ∃ n q, e.path = pre ++ n :: q
  | .nil, pre, e, he => by simp [zipE] at he
  | .cons m c rest, pre, e, he => by
    rw [zipE] at he
    rcases List.mem_append.mp he with h1 | h2
    · obtain ⟨q, hq⟩ := pathPre_T c (pre ++ [m]) e h1
      exact ⟨m, q, by simpa [List.append_assoc] using hq⟩
    · exact pathPre_E rest pre e h2
end

theorem nameShape (nm : String) (es : FSEntries) (e : ZEntry)
    (he : e ∈ zipT [nm] (.dir es)) :
    ∃ tail, entryNameData e = nm.data ++ '/' :: tail := by
  rw [zipT] at he
  rcases List.mem_cons.mp he with h1 | h2
  · refine ⟨[], ?_⟩
    rw [h1]
    rfl
  · obtain ⟨n, q, hq⟩ := pathPre_E es [nm] e h2
    cases e with
    | mk p k =>
      simp only at hq
      subst hq
      cases k with
      | none =>
        refine ⟨joinSegs (n.data :: q.map String.data) ++ ['/'], ?_⟩
        show joinSegs (([nm] ++ n :: q).map String.data) ++ ['/'] = _
        rw [show ([nm] ++ n :: q).map String.data
            = nm.data :: n.data :: q.map String.data by simp]
        rw [show joinSegs (nm.data :: n.data :: q.map String.data)
            = nm.data ++ '/' :: joinSegs (n.data :: q.map String.data) from rfl]
        rw [List.append_assoc, List.cons_append]
      | some sz =>
        refine ⟨joinSegs (n.data :: q.map String.data), ?_⟩
        show joinSegs (([nm] ++ n :: q).map String.data) ++ [] = _
        rw [List.append_nil]
        rw [show ([nm] ++ n :: q).map String.data
            = nm.data :: n.data :: q.map String.data by simp]
        rw [show joinSegs (nm.data :: n.data :: q.map String.data)
            = nm.data ++ '/' :: joinSegs (n.data :: q.map String.data) from rfl]

theorem splitSeg_ne_nil : ∀ (l : List Char), splitSeg l ≠ []
  | [] => by simp [splitSeg]
  | c :: cs => by
    rw [splitSeg]
    cases h : splitSeg cs with
    | nil => exact absurd h (splitSeg_ne_nil cs)
    | cons hh tt =>
      by_cases hc : (c == '/') = true <;> simp [hc]

theorem splitSeg_clean : ∀ (a t : List Char), (∀ c ∈ a, (c == '/') = false) →
    splitSeg (a ++ '/' :: t) = a :: splitSeg t
  | [], t, h => by
    rw [List.nil_append, splitSeg]
    cases hs : splitSeg t with
    | nil => exact absurd hs (splitSeg_ne_nil t)
    | cons hh tt => simp
  | c :: a, t, h => by
    rw [List.cons_append, splitSeg,
      splitSeg_clean a t (fun x hx => h x (List.mem_cons_of_mem c hx))]
    have hc : (c == '/') = false := h c (List.mem_cons_self c a)
    simp [hc]

theorem dedup_allEq : ∀ (l : List (List Char)) (a : List Char),
    (∀ x ∈ l, x = a) → l ≠ [] → l.dedup = [a]
  | [], a, h, hne => absurd rfl hne
  | [x], a, h, hne => by
    have hx : x = a := h x (List.mem_cons_self x [])
    subst hx
    simp
  | x :: y :: ys, a, h, hne => by
    have hx : x = a := h x (List.mem_cons_self x (y :: ys))
    subst hx
    have hy : y = x := h y (List.mem_cons_of_mem x (List.mem_cons_self y ys))
    have hmem : x ∈ y :: ys := by
      rw [hy]
      exact List.mem_cons_self _ _
    rw [List.dedup_cons_of_mem hmem]
    exact dedup_allEq (y :: ys) x (fun z hz => h z (List.mem_cons_of_mem _ hz))
      (by simp)

theorem topDirs_zip (nm : String) (es : FSEntries) (hok : okSeg nm = true) :
    topDirs ((zipT [nm] (.dir es)).map entryNameData) = [nm.data] := by
  have hclean : ∀ c ∈ nm.data, (c == '/') = false := by
    intro c hc
    have h2 := (Bool.and_eq_true _ _).mp hok |>.2
    rw [List.all_eq_true] at h2
    have := h2 c hc
    simpa using this
  have hshape : ∀ name ∈ (zipT [nm] (.dir es)).map entryNameData,
      name.any (fun c => c == '/') = true ∧ (splitSeg name).headD [] = nm.data := by
    intro name hn
    obtain ⟨e, he, hne⟩ := List.mem_map.mp hn
    obtain ⟨tail, ht⟩ := nameShape nm es e he
    rw [← hne, ht]
    constructor
    · simp
    · rw [splitSeg_clean nm.data tail hclean]
      rfl
  rw [topDirs]
  have hfilter : ((zipT [nm] (.dir es)).map entryNameData).filter
      (fun n => n.any (fun c => c == '/')) = (zipT [nm] (.dir es)).map entryNameData := by
    rw [List.filter_eq_self]
    intro a ha
    exact (hshape a ha).1
  rw [hfilter]
  apply dedup_allEq
  · intro x hx
    obtain ⟨name, hn, hhd⟩ := List.mem_map.mp hx
    rw [← hhd]
    exact (hshape name hn).2
  · have : entryNameData ⟨[nm], none⟩ ∈ (zipT [nm] (.dir es)).map entryNameData := by
      apply List.mem_map_of_mem
      rw [zipT]
      exact List.mem_cons_self _ _
    intro hnil
    rw [List.map_eq_nil_iff] at hnil
    rw [hnil] at this
    simp at this

theorem import_single_top (zp : String) (entries : List ZEntry) (root : FSTree)
    (hv : impHasModelFiles (entries.map entryNameData) = true)
    (hlen : (topDirs (entries.map entryNameData)).length = 1)
    (hroot : rootHas root (String.mk (theHead (topDirs (entries.map entryNameData))))
      = false) :
    import_model_zip zp entries root =
      (⟨true, none, some (String.mk (theHead (topDirs (entries.map entryNameData))))⟩,
        extractAll root [] entries) := by
  simp [import_model_zip, hv, hlen, hroot]

/-- C1: exporting a well-formed model directory with zip_model and importing
the archive into a fresh empty output root succeeds and reproduces, under
the original directory name, a model directory with the same relative file
set and the same total byte size as the original. -/
theorem c1_round_trip (nm zp : String) (t : FSTree) (ar : List ZEntry)
    (hwf : wfT t = true) (hok : okSeg nm = true) (hzip : zip_model nm t = some ar) :
    (import_model_zip zp ar (.dir .nil)).1.success = true ∧
    ∃ t2, getPath (import_model_zip zp ar (.dir .nil)).2 [nm] = some t2 ∧
      filesT t2 = filesT t ∧ get_model_size t2 = get_model_size t := by
  cases t with
  | file sz => simp [zip_model] at hzip
  | dir es =>
    rw [zip_model] at hzip
    by_cases hsig : zip_hasModelFiles es = true
    · rw [if_pos hsig] at hzip
      have har : ar = zipT [nm] (.dir es) := by
        injection hzip with h
        exact h.symm
      subst har
      have hfiles := hasModelFiles_zip nm es hsig
      have htd := topDirs_zip nm es hok
      have hmk : String.mk nm.data = nm := by
        cases nm
        rfl
      have himp := import_single_top zp (zipT [nm] (.dir es)) (.dir .nil) hfiles
        (by rw [htd]; rfl) rfl
      rw [himp]
      have hext : extractAll (.dir .nil) [] (zipT [nm] (.dir es)) =
          .dir (.cons nm (.dir es) .nil) := by
        rw [extractAll_nil, extract_zipT (.dir es) .nil nm hwf rfl]
        rfl
      constructor
      · rfl
      · show ∃ t2, getPath (extractAll (.dir .nil) [] (zipT [nm] (.dir es))) [nm]
            = some t2 ∧ filesT t2 = filesT (.dir es) ∧
            get_model_size t2 = get_model_size (.dir es)
        rw [hext]
        exact ⟨.dir es, by simp [getPath, lookupE], rfl, rfl⟩
    · rw [if_neg hsig] at hzip
      exact absurd hzip (by simp)

/-- C1 witness: a two-file model directory with a shard subfolder survives
the round trip with its tree intact. -/
theorem c1_witness :
    (import_model_zip "m.zip"
      (zipT ["m"] (.dir (.cons "config.json" (.file 3)
        (.cons "sub" (.dir (.cons "w.safetensors" (.file 5) .nil)) .nil))))
      (.dir .nil)).1.success = true ∧
    ∃ t2, getPath (import_model_zip "m.zip"
        (zipT ["m"] (.dir (.cons "config.json" (.file 3)
          (.cons "sub" (.dir (.cons "w.safetensors" (.file 5) .nil)) .nil))))
        (.dir .nil)).2 ["m"] = some t2 ∧
      filesT t2 = filesT (.dir (.cons "config.json" (.file 3)
        (.cons "sub" (.dir (.cons "w.safetensors" (.file 5) .nil)) .nil))) ∧
      get_model_size t2 = get_model_size (.dir (.cons "config.json" (.file 3)
        (.cons "sub" (.dir (.cons "w.safetensors" (.file 5) .nil)) .nil))) :=
  c1_round_trip "m" "m.zip"
    (.dir (.cons "config.json" (.file 3)
      (.cons "sub" (.dir (.cons "w.safetensors" (.file 5) .nil)) .nil)))
    (zipT ["m"] (.dir (.cons "config.json" (.file 3)
      (.cons "sub" (.dir (.cons "w.safetensors" (.file 5) .nil)) .nil))))
    (by decide) (by decide) rfl
